import Mathlib

/-!
Verification of the MCTS search core of the ultimate-tic-tac-toe bot
(files `mcts_vanilla.py` and `mcts_modified.py`).

The search tree is a heap of mutable Python objects linked by `parent`
references and `child_nodes` dictionaries.  We embed it as an arena: a list
of node records addressed by their allocation index, where index `0` is the
root built by `think`, mutation is functional update of the list, and a new
node is appended at the end (so a child's index is always strictly larger
than its parent's).  Game states are an opaque type `σ`, actions an opaque
type `α`, and the game-rules object `Board` is a record of the functions the
search calls on it.  Python floats are embedded as exact numbers: real
numbers where `sqrt`/`log` occur (the UCB value) and rationals elsewhere.
Unbounded Python recursion/iteration is embedded with an explicit fuel
argument; every theorem either fixes a sufficient fuel or quantifies over
all sufficient fuels.
-/

section Defs

variable {σ α : Type}

/-- Modelled from the spec: the game-rules collaborator (`p2_t3.py`, class
`Board`) is not among the sources; its interface follows spec section 6
(external interfaces).  `points_values` is the outcome mapping read on
terminal states and `owned_boxes` the sub-board ownership mapping used only
by the heuristic evaluator. -/
structure Board (σ α : Type) where
  is_ended : σ → Bool
  current_player : σ → ℕ
  legal_actions : σ → List α
  next_state : σ → α → σ
  points_values : σ → ℕ → Int
  owned_boxes : σ → ℕ × ℕ → ℕ

/-- Modelled from the spec: the tree node class (`mcts_node.py`, class
`MCTSNode`) is not among the sources; its fields follow spec section 3
(data model).  `parent` and the values of `child_nodes` are arena indices;
`child_nodes` is an insertion-ordered association list, standing for the
Python dict. -/
structure MCTSNode (α : Type) where
  parent : Option ℕ
  parent_action : Option α
  child_nodes : List (α × ℕ)
  untried_actions : List α
  wins : ℕ
  visits : ℕ

/-- Modelled from the spec: the `MCTSNode` constructor initializes
`untried_actions` once, at creation, to the full legal-action set passed as
`action_list`, with empty children and zero statistics (spec section 3). -/
def MCTSNode.new (parent : Option ℕ) (parent_action : Option α)
    (action_list : List α) : MCTSNode α :=
  { parent := parent, parent_action := parent_action, child_nodes := [],
    untried_actions := action_list, wins := 0, visits := 0 }

/-- Arena of search nodes: index = allocation order, `0` is the root. -/
abbrev SearchTree (α : Type) := List (MCTSNode α)

/-- Dereference an arena index.  Out-of-range indices (which never occur in
a run of the search) yield a blank node. -/
def getN (t : SearchTree α) (i : ℕ) : MCTSNode α :=
  t.getD i (MCTSNode.new none none [])

/-- Functional update of the node at index `i` (no-op when out of range). -/
def setN (t : SearchTree α) (i : ℕ) (nd : MCTSNode α) : SearchTree α :=
  t.set i nd

end Defs

namespace MctsVanilla

variable {σ α : Type}

/-- Module-level exploration constant of `mcts_vanilla.py` (line 12):
`explore_faction = 2.`. -/
noncomputable def explore_faction : ℝ := 2

/-- Value of the UCB function: Python returns the float `inf` for an
unvisited node and an ordinary float otherwise. -/
inductive UcbVal where
  | inf : UcbVal
  | val : ℝ → UcbVal

/-- Embedding of `ucb(node, is_opponent)` (`mcts_vanilla.py` lines 113-133).
When `node.visits == 0` Python returns `float('inf')`; otherwise it computes
`exploration` from `node.parent.visits`, `exploitation = wins/visits`,
flips the exploitation term when `is_opponent`, and returns their sum.
Python would raise on `node.parent.visits` when the parent is `None`; `ucb`
is only ever called on children, so we dereference a blank node in that
never-taken case. -/
noncomputable def ucb (t : SearchTree α) (i : ℕ) (is_opponent : Bool) : UcbVal :=
  let node := getN t i
  if node.visits = 0 then UcbVal.inf
  else
    let exploration : ℝ :=
      explore_faction *
        Real.sqrt (Real.log ((getN t (node.parent.getD t.length)).visits) / node.visits)
    let exploitation : ℝ := (node.wins : ℝ) / (node.visits : ℝ)
    UcbVal.val ((if is_opponent then 1 - exploitation else exploitation) + exploration)

/-- The `for action, child in current_node.child_nodes.items()` loop of
`traverse_nodes` (`mcts_vanilla.py` lines 43-54), carrying `highest_ucb`
and the current best `(child, state)`.  A `Sum.inl` result is the early
`return child, board.next_state(current_state, action)` taken on an
infinite UCB; `Sum.inr` is the pair left for the recursive call. -/
noncomputable def traverse_loop (board : Board σ α) (t : SearchTree α) (s : σ)
    (is_opponent : Bool) :
    List (α × ℕ) → ℝ → Option (ℕ × σ) → (ℕ × σ) ⊕ Option (ℕ × σ)
  | [], _, best => Sum.inr best
  | (action, child) :: rest, highest_ucb, best =>
    match ucb t child is_opponent with
    | UcbVal.inf => Sum.inl (child, board.next_state s action)
    | UcbVal.val x =>
      if highest_ucb < x then
        traverse_loop board t s is_opponent rest x
          (some (child, board.next_state s action))
      else
        traverse_loop board t s is_opponent rest highest_ucb best

/-- Embedding of `traverse_nodes(node, board, state, bot_identity)`
(`mcts_vanilla.py` lines 14-56).  The `Option ℕ` argument is the current
node (Python passes `best_child`, possibly `None`, to the recursive call);
a `none` result marks the paths on which Python raises (descending into
`None`) or the fuel bound on the unbounded Python recursion running out. -/
noncomputable def traverse_nodes (board : Board σ α) (t : SearchTree α)
    (bot_identity : ℕ) :
    ℕ → Option ℕ → σ → Option (ℕ × σ)
  | _, none, _ => none
  | 0, some _, _ => none
  | fuel + 1, some i, state =>
    if board.is_ended state then some (i, state)
    else
      match (getN t i).untried_actions with
      | _ :: _ => some (i, state)
      | [] =>
        let is_opponent : Bool := board.current_player state != bot_identity
        match traverse_loop board t state is_opponent
            (getN t i).child_nodes (-1) none with
        | Sum.inl (child, s) => some (child, s)
        | Sum.inr (some (best_child, best_state)) =>
          traverse_nodes board t bot_identity fuel (some best_child) best_state
        | Sum.inr none => none

/-- Embedding of `expand_leaf(node, board, state)` (`mcts_vanilla.py` lines
58-76).  Python `list.pop()` removes and returns the last element of
`untried_actions`; the new child is appended to the arena, so its index is
the old length.  `pop()` on an empty list raises IndexError; callers guard
on a non-empty `untried_actions`, and we return the inputs unchanged on
that never-taken branch. -/
def expand_leaf (board : Board σ α) (t : SearchTree α) (i : ℕ) (state : σ) :
    SearchTree α × ℕ × σ :=
  match (getN t i).untried_actions.getLast? with
  | none => (t, i, state)
  | some action =>
    let node := getN t i
    let new_state := board.next_state state action
    let new_node : MCTSNode α :=
      MCTSNode.new (some i) (some action) (board.legal_actions new_state)
    let t1 := setN t i { node with
        untried_actions := node.untried_actions.dropLast,
        child_nodes := node.child_nodes ++ [(action, t.length)] }
    (t1 ++ [new_node], t.length, new_state)

/-- Embedding of `rollout(board, state)` (`mcts_vanilla.py` lines 78-95).
`random.choice(seq)` is embedded by the draw stream `g` and counter `k`:
the `k`-th draw picks index `g k % seq.length`.  The fuel bounds the
unbounded `while` loop; `choice` on an empty action list (out of the Game
contract) raises in Python and here stops at the current state. -/
def rollout (board : Board σ α) :
    ℕ → σ → (ℕ → ℕ) → ℕ → σ × ℕ
  | 0, state, _, k => (state, k)
  | fuel + 1, state, g, k =>
    if board.is_ended state then (state, k)
    else
      let actions := board.legal_actions state
      match actions.get? (g k % actions.length) with
      | none => (state, k)
      | some action => rollout board fuel (board.next_state state action) g (k + 1)

/-- Recursion of `backpropagate` (`mcts_vanilla.py` lines 97-111) with a
fuel bound; starting from index `i` the fuel `i + 1` suffices because every
parent index is smaller than its child's. -/
def backprop_aux (won : Bool) : ℕ → SearchTree α → Option ℕ → SearchTree α
  | _, t, none => t
  | 0, t, some _ => t
  | fuel + 1, t, some i =>
    let node := getN t i
    let node1 := { node with
        visits := node.visits + 1,
        wins := node.wins + (if won then 1 else 0) }
    backprop_aux won fuel (setN t i node1) node.parent

/-- Embedding of `backpropagate(node, won)` (`mcts_vanilla.py` lines
97-111): walk the parent chain, adding 1 to `visits` everywhere and 1 to
`wins` everywhere iff `won`; the base case is `node is None`. -/
def backpropagate (t : SearchTree α) (node : Option ℕ) (won : Bool) : SearchTree α :=
  backprop_aux won (node.getD 0 + 1) t node

/-- Plain win rate `child.wins / child.visits` read by `get_best_action`
(`mcts_vanilla.py` line 149); integer division of Python ints yields an
exact rational here.  Python raises ZeroDivisionError on a zero-visit
child; in a run of the search every child has been visited. -/
def win_rate (t : SearchTree α) (child : ℕ) : ℚ :=
  ((getN t child).wins : ℚ) / ((getN t child).visits : ℚ)

/-- The `for action, child in root_node.child_nodes.items()` loop of
`get_best_action` (`mcts_vanilla.py` lines 148-152), carrying
`best_win_rate` and `best_action`. -/
def get_best_action_loop (t : SearchTree α) :
    List (α × ℕ) → ℚ → Option α → Option α
  | [], _, best_action => best_action
  | (action, child) :: rest, best_win_rate, best_action =>
    let curr_win_rate := win_rate t child
    if best_win_rate < curr_win_rate then
      get_best_action_loop t rest curr_win_rate (some action)
    else
      get_best_action_loop t rest best_win_rate best_action

/-- Embedding of `get_best_action(root_node)` (`mcts_vanilla.py` lines
136-153): the child win rates are folded with initial `best_win_rate = -1`
and `best_action = None`. -/
def get_best_action (t : SearchTree α) (root_node : ℕ) : Option α :=
  get_best_action_loop t (getN t root_node).child_nodes (-1) none

/-- Embedding of `is_win(board, state, identity_of_bot)` (`mcts_vanilla.py`
lines 155-159); the assertion that the state is terminal is a caller
obligation. -/
def is_win (board : Board σ α) (state : σ) (identity_of_bot : ℕ) : Bool :=
  board.points_values state identity_of_bot == 1

/-- One iteration of the budget loop of `think` (`mcts_vanilla.py` lines
211-225, identical to the body of the time-budget branch): select, expand
when the selected node has untried actions, roll out, backpropagate.  `k`
is the position in the random draw stream.  The `none` result of
`traverse_nodes` marks a path on which Python raises; it is unreachable
under the Game contract and leaves the state unchanged here. -/
noncomputable def mcts_iteration (board : Board σ α) (current_state : σ)
    (bot_identity : ℕ) (rollout_fuel : ℕ) (g : ℕ → ℕ)
    (t : SearchTree α) (k : ℕ) : SearchTree α × ℕ :=
  match traverse_nodes board t bot_identity (t.length + 1) (some 0) current_state with
  | none => (t, k)
  | some (node0, state0) =>
    let step :=
      match (getN t node0).untried_actions with
      | _ :: _ => expand_leaf board t node0 state0
      | [] => (t, node0, state0)
    let t1 := step.1
    let node1 := step.2.1
    let state1 := step.2.2
    let r := rollout board rollout_fuel state1 g k
    let won := is_win board r.1 bot_identity
    (backpropagate t1 (some node1) won, r.2)

/-- The `for _ in range(num_nodes)` budget loop of `think`
(`mcts_vanilla.py` lines 211-225). -/
noncomputable def think_loop (board : Board σ α) (current_state : σ)
    (bot_identity : ℕ) (rollout_fuel : ℕ) (g : ℕ → ℕ) :
    ℕ → SearchTree α × ℕ → SearchTree α × ℕ
  | 0, tk => tk
  | n + 1, tk =>
    think_loop board current_state bot_identity rollout_fuel g n
      (mcts_iteration board current_state bot_identity rollout_fuel g tk.1 tk.2)

/-- The tree built by `think` (`mcts_vanilla.py` lines 189-226) after the
budget loop: a fresh root holding the legal actions of `current_state`,
then `num_nodes` iterations.  The module-level configuration
(`num_nodes = 1000`) and the random stream are explicit arguments. -/
noncomputable def thinkTree (board : Board σ α) (current_state : σ)
    (num_nodes rollout_fuel : ℕ) (g : ℕ → ℕ) : SearchTree α :=
  let bot_identity := board.current_player current_state
  let root_node : SearchTree α := [MCTSNode.new none none (board.legal_actions current_state)]
  (think_loop board current_state bot_identity rollout_fuel g num_nodes (root_node, 0)).1

/-- Embedding of `think(board, current_state)` (`mcts_vanilla.py` lines
179-238), fixed-iteration-count budget mode (the `elif` branch, lines
210-225): run the budget loop, then return `get_best_action(root_node)`. -/
noncomputable def think (board : Board σ α) (current_state : σ)
    (num_nodes rollout_fuel : ℕ) (g : ℕ → ℕ) : Option α :=
  get_best_action (thinkTree board current_state num_nodes rollout_fuel g) 0

end MctsVanilla

namespace MctsModified

variable {σ α : Type}

/-- The nine macro-board locations, the key set of the `owned_boxes`
mapping iterated by the heuristic evaluator. -/
def box_locs : List (ℕ × ℕ) :=
  [(0, 0), (0, 1), (0, 2), (1, 0), (1, 1), (1, 2), (2, 0), (2, 1), (2, 2)]

/-- Embedding of `score_micro_threats(board, state, bot_id)`
(`mcts_modified.py` lines 196-206): a documented no-op returning `0.0`. -/
def score_micro_threats (_board : Board σ α) (_state : σ) (_bot_id : ℕ) : ℚ :=
  0

/-- Embedding of `score_macro_board(board, state, bot_id)`
(`mcts_modified.py` lines 154-193): fold the eight macro lines, adding 20
for an open line with two owned boards, 100 for three, and subtracting 20
for an open opponent line with two. -/
def score_macro_board (board : Board σ α) (state : σ) (bot_id : ℕ) : ℚ :=
  let owned := board.owned_boxes state
  let macro_grid := fun r c => owned (r, c)
  let lines : List (List ℕ) :=
    [[macro_grid 0 0, macro_grid 0 1, macro_grid 0 2],
     [macro_grid 1 0, macro_grid 1 1, macro_grid 1 2],
     [macro_grid 2 0, macro_grid 2 1, macro_grid 2 2],
     [macro_grid 0 0, macro_grid 1 0, macro_grid 2 0],
     [macro_grid 0 1, macro_grid 1 1, macro_grid 2 1],
     [macro_grid 0 2, macro_grid 1 2, macro_grid 2 2],
     [macro_grid 0 0, macro_grid 1 1, macro_grid 2 2],
     [macro_grid 0 2, macro_grid 1 1, macro_grid 2 0]]
  lines.foldl (fun score line =>
    let num_me := line.count bot_id
    let num_opp := line.count (3 - bot_id)
    let score :=
      if num_opp = 0 then
        if num_me = 2 then score + 20
        else if num_me = 3 then score + 100
        else score
      else score
    if num_me = 0 ∧ num_opp = 2 then score - 20 else score) 0

/-- Embedding of `evaluate_heuristic(board, state, action, bot_id)`
(`mcts_modified.py` lines 106-151).  Note the four required arguments. -/
def evaluate_heuristic (board : Board σ α) (state : σ) (action : α)
    (bot_id : ℕ) : ℚ :=
  let next_state := board.next_state state action
  if board.is_ended next_state then
    let outcome := board.points_values next_state
    if outcome bot_id = 1 then 10000
    else if outcome bot_id = -1 then -10000
    else 0
  else
    let curr_owned := board.owned_boxes state
    let new_owned := board.owned_boxes next_state
    let capture_score : ℚ := box_locs.foldl (fun acc loc =>
      if curr_owned loc = 0 ∧ new_owned loc = bot_id then acc + 50
      else if curr_owned loc = 0 ∧ new_owned loc ≠ 0 ∧ new_owned loc ≠ bot_id then
        acc - 50
      else acc) 0
    let macro_score := score_macro_board board next_state bot_id
    let micro_threat_score := score_micro_threats board next_state bot_id
    capture_score + macro_score + micro_threat_score

/-- The `while not board.is_ended(curr_state)` loop of the modified
`rollout` (`mcts_modified.py` lines 88-101).  Two deviations of the source
from the greedy policy are embedded faithfully: line 91 computes
`actions = board.legal_actions(state)` from the INITIAL state argument,
not from `curr_state`; and line 96 calls
`evaluate_heuristic(board, curr_state, act)` with three arguments although
the function (line 106) requires the fourth argument `bot_id`, so CPython
raises TypeError on the first element of a non-empty action list.  With an
empty action list the loop instead falls through to
`board.next_state(curr_state, None)` with `best_action = None`, which also
raises. -/
def rollout_loop (board : Board σ α) (state : σ) : ℕ → σ → Except String σ
  | 0, curr_state => Except.ok curr_state
  | _fuel + 1, curr_state =>
    if board.is_ended curr_state then Except.ok curr_state
    else
      match board.legal_actions state with
      | [] => Except.error "TypeError: next_state called with best_action = None"
      | _ :: _ =>
        Except.error "TypeError: evaluate_heuristic missing 1 required positional argument: bot_id"

/-- Embedding of the modified `rollout(board, state)` (`mcts_modified.py`
lines 74-104): the heuristic-greedy playout loop.  The fuel bounds the
unbounded `while` loop. -/
def rollout (board : Board σ α) (state : σ) (fuel : ℕ) : Except String σ :=
  rollout_loop board state fuel state

end MctsModified

section SpecPredicates

variable {σ α : Type}

/-- Every stored parent index is strictly smaller than its node's own index.
This holds for every tree the search builds, because `expand_leaf` appends
the child after its parent; it is what makes the parent walk of
`backpropagate` finite. -/
def ParentsBelow (t : SearchTree α) : Prop :=
  ∀ j p, (getN t j).parent = some p → p < j

/-- Fueled walk up the parent chain (fuel `i + 1` suffices under
`ParentsBelow`). -/
def parent_chain_aux (t : SearchTree α) : ℕ → Option ℕ → List ℕ
  | _, none => []
  | 0, some _ => []
  | fuel + 1, some i => i :: parent_chain_aux t fuel (getN t i).parent

/-- The chain of arena indices from `i` up to the root: `i`, its parent,
its grandparent, and so on. -/
def parent_chain (t : SearchTree α) (i : ℕ) : List ℕ :=
  parent_chain_aux t (i + 1) (some i)

/-- Spec section 3 and 8 invariant: `0 ≤ wins ≤ visits` for every node of
the arena (the lower bound is inherent in the `ℕ`-valued fields). -/
def WinsLeVisits (t : SearchTree α) : Prop :=
  ∀ j < t.length, (getN t j).wins ≤ (getN t j).visits

/-- Every node listed in some node's `child_nodes` has been visited at
least once. -/
def ChildrenVisited (t : SearchTree α) : Prop :=
  ∀ i < t.length, ∀ p ∈ (getN t i).child_nodes, 1 ≤ (getN t p.2).visits

/-- Structural sanity of the arena: every child edge points strictly
downward (larger index) and into the arena. -/
def ChildIdsValid (t : SearchTree α) : Prop :=
  ∀ i < t.length, ∀ p ∈ (getN t i).child_nodes, i < p.2 ∧ p.2 < t.length

/-- The assignment `stateOf` labels the tree consistently with the game:
the state at a child is `next_state` of the state at its parent under the
edge action. -/
def TreeStates (board : Board σ α) (t : SearchTree α) (stateOf : ℕ → σ) : Prop :=
  ∀ i < t.length, ∀ p ∈ (getN t i).child_nodes,
    stateOf p.2 = board.next_state (stateOf i) p.1

/-- Bookkeeping invariant of expansion: the untried actions of a node
followed by its expanded actions (in reverse insertion order, matching
`list.pop()` from the tail) are exactly the legal actions of its state. -/
def UntriedComplete (board : Board σ α) (t : SearchTree α) (stateOf : ℕ → σ) : Prop :=
  ∀ i < t.length,
    (getN t i).untried_actions ++ ((getN t i).child_nodes.map Prod.fst).reverse
      = board.legal_actions (stateOf i)

/-- Reachability along child edges: `Reaches t i j` says node `j` lies at
or below node `i` in the tree. -/
inductive Reaches (t : SearchTree α) : ℕ → ℕ → Prop
  | refl (i : ℕ) : Reaches t i i
  | step {i c j : ℕ} (a : α) (hmem : (a, c) ∈ (getN t i).child_nodes)
      (h : Reaches t c j) : Reaches t i j

end SpecPredicates

section Fixtures

/-- One-move game used by concrete witnesses: state `0` is non-terminal
with the single legal action `0`; every other state is terminal and won by
player 1. -/
def oneMoveBoard : Board ℕ ℕ :=
  { is_ended := fun s => decide (1 ≤ s)
    current_player := fun _ => 1
    legal_actions := fun s => if s = 0 then [0] else []
    next_state := fun s a => s + a + 1
    points_values := fun _ _ => 1
    owned_boxes := fun _ _ => 0 }

/-- Game whose every state is terminal (a finished match), used to probe
`think` on a terminal input. -/
def endedBoard : Board ℕ ℕ :=
  { is_ended := fun _ => true
    current_player := fun _ => 1
    legal_actions := fun _ => []
    next_state := fun s _ => s
    points_values := fun _ _ => 0
    owned_boxes := fun _ _ => 0 }

/-- Two-node arena (a root and one visited child) used by concrete
witnesses. -/
def pairTree : SearchTree ℕ :=
  [{ parent := none, parent_action := none, child_nodes := [(5, 1)],
     untried_actions := [], wins := 2, visits := 3 },
   { parent := some 0, parent_action := some 5, child_nodes := [],
     untried_actions := [7], wins := 1, visits := 2 }]


/-- Single-node arena whose root still has two untried actions. -/
def expandTree : SearchTree ℕ :=
  [{ parent := none, parent_action := none, child_nodes := [],
     untried_actions := [3, 4], wins := 0, visits := 1 }]


/-- Three-node parent chain (root, middle, leaf) used by the
backpropagation witness. -/
def chainTree : SearchTree ℕ :=
  [{ parent := none, parent_action := none, child_nodes := [(1, 1)],
     untried_actions := [], wins := 1, visits := 2 },
   { parent := some 0, parent_action := some 1, child_nodes := [(2, 2)],
     untried_actions := [], wins := 0, visits := 1 },
   { parent := some 1, parent_action := some 2, child_nodes := [],
     untried_actions := [9], wins := 1, visits := 1 }]


/-- Two-state game matching `pairTree` (state = arena index): state 0 has
the single legal action 5 leading to state 1, which offers action 7; no
state is terminal. -/
def stepBoard : Board ℕ ℕ :=
  { is_ended := fun _ => false
    current_player := fun _ => 1
    legal_actions := fun s => if s = 0 then [5] else [7]
    next_state := fun _ _ => 1
    points_values := fun _ _ => 0
    owned_boxes := fun _ _ => 0 }

end Fixtures

section ArenaLemmas

variable {σ α : Type}

lemma length_setN (t : SearchTree α) (i : ℕ) (nd : MCTSNode α) :
    (setN t i nd).length = t.length :=
  List.length_set t i nd

lemma getN_setN_self (t : SearchTree α) (i : ℕ) (nd : MCTSNode α)
    (h : i < t.length) : getN (setN t i nd) i = nd := by
  simp [getN, setN, List.getD, List.getElem?_set, h]

lemma getN_setN_ne (t : SearchTree α) (i j : ℕ) (nd : MCTSNode α)
    (h : j ≠ i) : getN (setN t i nd) j = getN t j := by
  simp [getN, setN, List.getD, List.getElem?_set, Ne.symm h]

lemma getN_append_left (t t2 : SearchTree α) (j : ℕ) (h : j < t.length) :
    getN (t ++ t2) j = getN t j :=
  List.getD_append t t2 (MCTSNode.new none none []) j h

lemma getN_append_length (t : SearchTree α) (nd : MCTSNode α) :
    getN (t ++ [nd]) t.length = nd := by
  simp [getN, List.getD, List.getElem?_concat_length]

lemma getN_oob (t : SearchTree α) (j : ℕ) (h : t.length ≤ j) :
    getN t j = MCTSNode.new none none [] :=
  List.getD_eq_default t _ h

end ArenaLemmas

namespace MctsModified

/-- C1 (code slip in the modified rollout): on the non-terminal start state
of the one-move game, the heuristic-greedy rollout never reaches a terminal
state; it stops at the TypeError raised by the call
`evaluate_heuristic(board, curr_state, act)` (`mcts_modified.py` line 96),
which omits the fourth required argument `bot_id` of the function defined
on line 106.  (Line 91 moreover reads the legal actions of the initial
state rather than of the current one.) -/
theorem rollout_raises :
    rollout oneMoveBoard 0 5
      = Except.error "TypeError: evaluate_heuristic missing 1 required positional argument: bot_id" :=
  rfl

end MctsModified

namespace MctsVanilla

variable {σ α : Type}

/-- C2: `ucb(node, is_opponent)` is `+infinity` iff `node.visits == 0`;
otherwise it is `exploitation + C * sqrt(ln(node.parent.visits) /
node.visits)` with `C = 2.0`, where the exploitation term is
`wins / visits`, flipped to `1 - wins / visits` exactly when
`is_opponent`; the exploration term is never flipped. -/
theorem ucb_spec (t : SearchTree α) (i p : ℕ) (b : Bool)
    (hp : (getN t i).parent = some p) :
    (ucb t i b = UcbVal.inf ↔ (getN t i).visits = 0) ∧
    ((getN t i).visits ≠ 0 →
      ucb t i b = UcbVal.val
        ((if b then 1 - ((getN t i).wins : ℝ) / ((getN t i).visits : ℝ)
          else ((getN t i).wins : ℝ) / ((getN t i).visits : ℝ)) +
         2 * Real.sqrt (Real.log ((getN t p).visits) / ((getN t i).visits : ℝ)))) := by
  constructor
  · constructor
    · intro h
      by_contra hv
      simp [ucb, hv] at h
    · intro h
      simp [ucb, h]
  · intro hv
    simp [ucb, hv, hp, explore_faction]

/-- Witness for `ucb_spec` at the two-node arena `pairTree`. -/
theorem ucb_spec_witness :
    (ucb pairTree 1 false = UcbVal.inf ↔ (getN pairTree 1).visits = 0) ∧
    ((getN pairTree 1).visits ≠ 0 →
      ucb pairTree 1 false = UcbVal.val
        ((if false then 1 - ((getN pairTree 1).wins : ℝ) / ((getN pairTree 1).visits : ℝ)
          else ((getN pairTree 1).wins : ℝ) / ((getN pairTree 1).visits : ℝ)) +
         2 * Real.sqrt (Real.log ((getN pairTree 0).visits) / ((getN pairTree 1).visits : ℝ)))) :=
  ucb_spec pairTree 1 0 false rfl

/-- C9: in the fixed-iteration-count budget mode, two runs of `think` on
identical board and state inputs with the same random draw stream (the
fixed seed of the uniform-random rollout policy) choose identical
actions. -/
theorem think_deterministic (board : Board σ α) (current_state : σ)
    (num_nodes rollout_fuel : ℕ) (g1 g2 : ℕ → ℕ) (h : ∀ k, g1 k = g2 k) :
    think board current_state num_nodes rollout_fuel g1
      = think board current_state num_nodes rollout_fuel g2 := by
  have hg : g1 = g2 := funext h
  rw [hg]

/-- Witness for `think_deterministic`: two syntactically different but
pointwise equal draw streams on the one-move game. -/
theorem think_deterministic_witness :
    think oneMoveBoard 0 1 2 (fun k => k)
      = think oneMoveBoard 0 1 2 (fun k => k + 0) :=
  think_deterministic oneMoveBoard 0 1 2 _ _ (fun k => (Nat.add_zero k).symm)

end MctsVanilla

section MoreArena

variable {σ α : Type}

lemma getN_setN (t : SearchTree α) (i j : ℕ) (nd : MCTSNode α) :
    getN (setN t i nd) j = if i = j ∧ i < t.length then nd else getN t j := by
  by_cases h1 : i = j
  · subst h1
    by_cases h2 : i < t.length
    · simp [h2, getN_setN_self t i nd h2]
    · have hle : t.length ≤ i := le_of_not_lt h2
      simp only [h2, and_false, if_false]
      rw [getN_oob _ i (by rw [length_setN]; exact hle), getN_oob t i hle]
  · simp [h1, getN_setN_ne t i j nd (Ne.symm h1)]

lemma parentsBelow_of_bounded (t : SearchTree α)
    (h : ∀ j < t.length, ∀ p ∈ (getN t j).parent, p < j) : ParentsBelow t := by
  intro j p hp
  by_cases hj : j < t.length
  · exact h j hj p (by simp [hp])
  · rw [getN_oob t j (le_of_not_lt hj)] at hp
    simp [MCTSNode.new] at hp

end MoreArena

namespace MctsVanilla

variable {σ α : Type}

/-- C6: on a node with non-empty `untried_actions` (written `l ++ [a]` to
name the popped last element), `expand_leaf` removes exactly that one
action from `untried_actions`, computes the resulting state with
`next_state`, creates a new child whose `untried_actions` is initialized
from the legal actions of the new state (and zero statistics, parent
back-reference and parent action set), inserts it into the parent's
children map under the removed action, returns the new child and the new
state, and touches no other node. -/
theorem expand_leaf_spec (board : Board σ α) (t : SearchTree α) (i : ℕ) (s : σ)
    (l : List α) (a : α) (hi : i < t.length)
    (hu : (getN t i).untried_actions = l ++ [a]) :
    (expand_leaf board t i s).2.1 = t.length ∧
    (expand_leaf board t i s).2.2 = board.next_state s a ∧
    (expand_leaf board t i s).1.length = t.length + 1 ∧
    (getN (expand_leaf board t i s).1 i).untried_actions = l ∧
    (getN (expand_leaf board t i s).1 i).child_nodes
      = (getN t i).child_nodes ++ [(a, t.length)] ∧
    (getN (expand_leaf board t i s).1 i).parent = (getN t i).parent ∧
    (getN (expand_leaf board t i s).1 i).wins = (getN t i).wins ∧
    (getN (expand_leaf board t i s).1 i).visits = (getN t i).visits ∧
    getN (expand_leaf board t i s).1 t.length
      = MCTSNode.new (some i) (some a)
          (board.legal_actions (board.next_state s a)) ∧
    (∀ j, j ≠ i → j < t.length → getN (expand_leaf board t i s).1 j = getN t j) := by
  have hlast : (getN t i).untried_actions.getLast? = some a := by
    rw [hu]; exact List.getLast?_concat l
  have hdrop : (getN t i).untried_actions.dropLast = l := by
    rw [hu]; exact List.dropLast_concat
  have hr : expand_leaf board t i s
      = (setN t i { getN t i with
            untried_actions := (getN t i).untried_actions.dropLast,
            child_nodes := (getN t i).child_nodes ++ [(a, t.length)] } ++
          [MCTSNode.new (some i) (some a)
            (board.legal_actions (board.next_state s a))],
         t.length, board.next_state s a) := by
    simp only [expand_leaf, hlast]
  rw [hr]
  have hlen : (setN t i { getN t i with
      untried_actions := (getN t i).untried_actions.dropLast,
      child_nodes := (getN t i).child_nodes ++ [(a, t.length)] }).length
      = t.length := length_setN t i _
  have hgi : getN ((setN t i { getN t i with
      untried_actions := (getN t i).untried_actions.dropLast,
      child_nodes := (getN t i).child_nodes ++ [(a, t.length)] }) ++
      [MCTSNode.new (some i) (some a)
        (board.legal_actions (board.next_state s a))]) i
      = { getN t i with
          untried_actions := (getN t i).untried_actions.dropLast,
          child_nodes := (getN t i).child_nodes ++ [(a, t.length)] } := by
    rw [getN_append_left _ _ i (by rw [hlen]; exact hi)]
    exact getN_setN_self t i _ hi
  have hnn : getN ((setN t i { getN t i with
      untried_actions := (getN t i).untried_actions.dropLast,
      child_nodes := (getN t i).child_nodes ++ [(a, t.length)] }) ++
      [MCTSNode.new (some i) (some a)
        (board.legal_actions (board.next_state s a))]) t.length
      = MCTSNode.new (some i) (some a)
          (board.legal_actions (board.next_state s a)) := by
    have h0 := getN_append_length (setN t i { getN t i with
      untried_actions := (getN t i).untried_actions.dropLast,
      child_nodes := (getN t i).child_nodes ++ [(a, t.length)] })
      (MCTSNode.new (some i) (some a)
        (board.legal_actions (board.next_state s a)))
    rw [hlen] at h0
    exact h0
  refine ⟨rfl, rfl, ?_, ?_, ?_, ?_, ?_, ?_, ?_, ?_⟩
  · simp [hlen]
  · rw [hgi]; exact hdrop
  · rw [hgi]
  · rw [hgi]
  · rw [hgi]
  · rw [hgi]
  · exact hnn
  · intro j hji hjlen
    rw [getN_append_left _ _ j (by rw [hlen]; exact hjlen)]
    exact getN_setN_ne t i j _ hji

end MctsVanilla

namespace MctsVanilla

/-- Witness for `expand_leaf_spec`: expanding the root of `expandTree`
pops action `4` and creates child `1`. -/
theorem expand_leaf_spec_witness :
    (expand_leaf oneMoveBoard expandTree 0 0).2.1 = expandTree.length ∧
    (expand_leaf oneMoveBoard expandTree 0 0).2.2
      = oneMoveBoard.next_state 0 4 ∧
    (expand_leaf oneMoveBoard expandTree 0 0).1.length = expandTree.length + 1 ∧
    (getN (expand_leaf oneMoveBoard expandTree 0 0).1 0).untried_actions = [3] ∧
    (getN (expand_leaf oneMoveBoard expandTree 0 0).1 0).child_nodes
      = (getN expandTree 0).child_nodes ++ [(4, expandTree.length)] ∧
    (getN (expand_leaf oneMoveBoard expandTree 0 0).1 0).parent
      = (getN expandTree 0).parent ∧
    (getN (expand_leaf oneMoveBoard expandTree 0 0).1 0).wins
      = (getN expandTree 0).wins ∧
    (getN (expand_leaf oneMoveBoard expandTree 0 0).1 0).visits
      = (getN expandTree 0).visits ∧
    getN (expand_leaf oneMoveBoard expandTree 0 0).1 expandTree.length
      = MCTSNode.new (some 0) (some 4)
          (oneMoveBoard.legal_actions (oneMoveBoard.next_state 0 4)) ∧
    (∀ j, j ≠ 0 → j < expandTree.length →
      getN (expand_leaf oneMoveBoard expandTree 0 0).1 j = getN expandTree j) :=
  expand_leaf_spec oneMoveBoard expandTree 0 0 [3] 4 (by decide) rfl

end MctsVanilla

section ChainLemmas

variable {σ α : Type}

lemma parent_chain_aux_none (t : SearchTree α) (fuel : ℕ) :
    parent_chain_aux t fuel none = [] := by
  cases fuel <;> rfl

lemma parent_chain_congr (t t1 : SearchTree α)
    (hpar : ∀ j, (getN t1 j).parent = (getN t j).parent) :
    ∀ fuel o, parent_chain_aux t1 fuel o = parent_chain_aux t fuel o := by
  intro fuel
  induction fuel with
  | zero => intro o; cases o <;> rfl
  | succ f ihf =>
    intro o
    cases o with
    | none => rfl
    | some i =>
      show i :: parent_chain_aux t1 f (getN t1 i).parent
        = i :: parent_chain_aux t f (getN t i).parent
      rw [hpar i, ihf]

lemma mem_parent_chain_aux_le (t : SearchTree α) (hwf : ParentsBelow t) :
    ∀ fuel i j, j ∈ parent_chain_aux t fuel (some i) → j ≤ i := by
  intro fuel
  induction fuel with
  | zero => intro i j h; cases h
  | succ f ihf =>
    intro i j h
    rcases List.mem_cons.mp h with rfl | h2
    · exact le_refl j
    · cases hp : (getN t i).parent with
      | none => rw [hp, parent_chain_aux_none] at h2; cases h2
      | some p =>
        rw [hp] at h2
        exact le_trans (ihf p j h2) (le_of_lt (hwf i p hp))

lemma mem_parent_chain_le (t : SearchTree α) (hwf : ParentsBelow t)
    (i j : ℕ) (h : j ∈ parent_chain t i) : j ≤ i :=
  mem_parent_chain_aux_le t hwf (i + 1) i j h

lemma parent_chain_aux_fuel (t : SearchTree α) (hwf : ParentsBelow t) :
    ∀ i fuel, i < fuel → parent_chain_aux t fuel (some i) = parent_chain t i := by
  intro i
  induction i using Nat.strong_induction_on with
  | _ i ih =>
    intro fuel hfuel
    obtain ⟨f, rfl⟩ : ∃ f, fuel = f + 1 := ⟨fuel - 1, by omega⟩
    show i :: parent_chain_aux t f (getN t i).parent
      = i :: parent_chain_aux t i (getN t i).parent
    cases hp : (getN t i).parent with
    | none => rw [parent_chain_aux_none, parent_chain_aux_none]
    | some p =>
      have hpi : p < i := hwf i p hp
      rw [ih p hpi f (by omega), ih p hpi i hpi]

lemma parent_chain_parent_none (t : SearchTree α) (i : ℕ)
    (hp : (getN t i).parent = none) : parent_chain t i = [i] := by
  show i :: parent_chain_aux t i (getN t i).parent = [i]
  rw [hp, parent_chain_aux_none]

lemma parent_chain_parent_some (t : SearchTree α) (hwf : ParentsBelow t)
    (i p : ℕ) (hp : (getN t i).parent = some p) :
    parent_chain t i = i :: parent_chain t p := by
  show i :: parent_chain_aux t i (getN t i).parent = _
  rw [hp, parent_chain_aux_fuel t hwf p i (hwf i p hp)]

lemma parent_chain_head (t : SearchTree α) (i : ℕ) : i ∈ parent_chain t i :=
  List.mem_cons_self i _

lemma parent_chain_closed (t : SearchTree α) (hwf : ParentsBelow t) :
    ∀ i, ∀ j ∈ parent_chain t i, ∀ q, (getN t j).parent = some q →
      q ∈ parent_chain t i := by
  intro i
  induction i using Nat.strong_induction_on with
  | _ i ih =>
    intro j hj q hq
    cases hp : (getN t i).parent with
    | none =>
      rw [parent_chain_parent_none t i hp] at hj ⊢
      rcases List.mem_cons.mp hj with rfl | h2
      · rw [hp] at hq; cases hq
      · cases h2
    | some p =>
      have hpi := hwf i p hp
      rw [parent_chain_parent_some t hwf i p hp] at hj ⊢
      rcases List.mem_cons.mp hj with hji | hj2
      · rw [hji, hp] at hq
        injection hq with hq1
        rw [← hq1]
        exact List.mem_cons_of_mem _ (parent_chain_head t p)
      · exact List.mem_cons_of_mem _ (ih p hpi j hj2 q hq)

end ChainLemmas

namespace MctsVanilla

variable {σ α : Type}

lemma backprop_aux_chain (won : Bool) :
    ∀ (i : ℕ) (t : SearchTree α), ParentsBelow t → i < t.length →
      ∀ fuel, i < fuel →
      (∀ j ∈ parent_chain t i,
        (getN (backprop_aux won fuel t (some i)) j).visits
          = (getN t j).visits + 1 ∧
        (getN (backprop_aux won fuel t (some i)) j).wins
          = (getN t j).wins + (if won then 1 else 0)) ∧
      (∀ j, j ∉ parent_chain t i →
        getN (backprop_aux won fuel t (some i)) j = getN t j) := by
  intro i
  induction i using Nat.strong_induction_on with
  | _ i ih =>
    intro t hwf hi fuel hfuel
    obtain ⟨f, rfl⟩ : ∃ f, fuel = f + 1 := ⟨fuel - 1, by omega⟩
    have hstep : backprop_aux won (f + 1) t (some i)
        = backprop_aux won f
            (setN t i { getN t i with
              visits := (getN t i).visits + 1,
              wins := (getN t i).wins + (if won then 1 else 0) })
            (getN t i).parent := rfl
    have hpar1 : ∀ j, (getN (setN t i { getN t i with
        visits := (getN t i).visits + 1,
        wins := (getN t i).wins + (if won then 1 else 0) }) j).parent
        = (getN t j).parent := by
      intro j
      rw [getN_setN]
      split
      · next h => rw [← h.1]
      · rfl
    have hself : i < t.length →
        getN (setN t i { getN t i with
          visits := (getN t i).visits + 1,
          wins := (getN t i).wins + (if won then 1 else 0) }) i
        = { getN t i with
            visits := (getN t i).visits + 1,
            wins := (getN t i).wins + (if won then 1 else 0) } :=
      fun h => getN_setN_self t i _ h
    cases hp : (getN t i).parent with
    | none =>
      have hres : backprop_aux won (f + 1) t (some i)
          = setN t i { getN t i with
              visits := (getN t i).visits + 1,
              wins := (getN t i).wins + (if won then 1 else 0) } := by
        rw [hstep, hp]; cases f <;> rfl
      have hch := parent_chain_parent_none t i hp
      constructor
      · intro j hj
        rw [hch] at hj
        rcases List.mem_cons.mp hj with hji | h2
        · rw [hji, hres, hself hi]
          exact ⟨rfl, rfl⟩
        · cases h2
      · intro j hj
        rw [hch] at hj
        have hji : j ≠ i := by intro h; exact hj (by rw [h]; exact List.mem_cons_self i [])
        rw [hres]
        exact getN_setN_ne t i j _ hji
    | some p =>
      have hpi := hwf i p hp
      have hwf1 : ParentsBelow (setN t i { getN t i with
          visits := (getN t i).visits + 1,
          wins := (getN t i).wins + (if won then 1 else 0) }) := by
        intro j q hq
        exact hwf j q ((hpar1 j) ▸ hq)
      have hpl : p < (setN t i { getN t i with
          visits := (getN t i).visits + 1,
          wins := (getN t i).wins + (if won then 1 else 0) }).length := by
        rw [length_setN]; exact lt_trans hpi hi
      obtain ⟨hin, hout⟩ := ih p hpi _ hwf1 hpl f (by omega)
      have hch := parent_chain_parent_some t hwf i p hp
      have hch1 : parent_chain (setN t i { getN t i with
          visits := (getN t i).visits + 1,
          wins := (getN t i).wins + (if won then 1 else 0) }) p
          = parent_chain t p := by
        show parent_chain_aux _ (p + 1) (some p) = parent_chain_aux t (p + 1) (some p)
        exact parent_chain_congr t _ hpar1 (p + 1) (some p)
      have hi_not : i ∉ parent_chain t p := by
        intro hmem
        have := mem_parent_chain_le t hwf p i hmem
        omega
      constructor
      · intro j hj
        rw [hch] at hj
        rcases List.mem_cons.mp hj with hji | hj2
        · rw [hji]
          have hu : getN (backprop_aux won f
              (setN t i { getN t i with
                visits := (getN t i).visits + 1,
                wins := (getN t i).wins + (if won then 1 else 0) }) (some p)) i
              = getN (setN t i { getN t i with
                visits := (getN t i).visits + 1,
                wins := (getN t i).wins + (if won then 1 else 0) }) i := by
            apply hout
            rw [hch1]
            exact hi_not
          rw [hstep, hp, hu, hself hi]
          exact ⟨rfl, rfl⟩
        · have hji : j ≠ i := by
            have := mem_parent_chain_le t hwf p j hj2
            omega
          have h2 : getN (setN t i { getN t i with
              visits := (getN t i).visits + 1,
              wins := (getN t i).wins + (if won then 1 else 0) }) j = getN t j :=
            getN_setN_ne t i j _ hji
          have h1 := hin j (by rw [hch1]; exact hj2)
          rw [hstep, hp]
          rw [h2] at h1
          exact h1
      · intro j hj
        rw [hch] at hj
        have hji : j ≠ i := by
          intro h; exact hj (by rw [h]; exact List.mem_cons_self i _)
        have hj2 : j ∉ parent_chain t p := fun h => hj (List.mem_cons_of_mem _ h)
        rw [hstep, hp, hout j (by rw [hch1]; exact hj2)]
        exact getN_setN_ne t i j _ hji

/-- C4: `backpropagate(node, won)` adds exactly 1 to `visits` at the node
and at every ancestor up to the root inclusive (the parent chain), adds
exactly 1 to `wins` at exactly those nodes iff `won` is true (never
flipping on depth), and leaves every node off the parent chain unchanged.
The last two conjuncts say the chain starts at the node and is closed
under taking parents, i.e. it ends at the root. -/
theorem backpropagate_spec (t : SearchTree α) (i : ℕ) (won : Bool)
    (hwf : ParentsBelow t) (hi : i < t.length) :
    (∀ j ∈ parent_chain t i,
      (getN (backpropagate t (some i) won) j).visits = (getN t j).visits + 1 ∧
      (getN (backpropagate t (some i) won) j).wins
        = (getN t j).wins + (if won then 1 else 0)) ∧
    (∀ j, j ∉ parent_chain t i →
      getN (backpropagate t (some i) won) j = getN t j) ∧
    i ∈ parent_chain t i ∧
    (∀ j ∈ parent_chain t i, ∀ q, (getN t j).parent = some q →
      q ∈ parent_chain t i) := by
  obtain ⟨h1, h2⟩ := backprop_aux_chain won i t hwf hi (i + 1) (Nat.lt_succ_self i)
  exact ⟨h1, h2, parent_chain_head t i, parent_chain_closed t hwf i⟩

end MctsVanilla

namespace MctsVanilla

/-- Witness for `backpropagate_spec`: backpropagating a win from the leaf
of the three-node chain. -/
theorem backpropagate_spec_witness :
    (∀ j ∈ parent_chain chainTree 2,
      (getN (backpropagate chainTree (some 2) true) j).visits
        = (getN chainTree j).visits + 1 ∧
      (getN (backpropagate chainTree (some 2) true) j).wins
        = (getN chainTree j).wins + (if true then 1 else 0)) ∧
    (∀ j, j ∉ parent_chain chainTree 2 →
      getN (backpropagate chainTree (some 2) true) j = getN chainTree j) ∧
    2 ∈ parent_chain chainTree 2 ∧
    (∀ j ∈ parent_chain chainTree 2, ∀ q, (getN chainTree j).parent = some q →
      q ∈ parent_chain chainTree 2) :=
  backpropagate_spec chainTree 2 true
    (parentsBelow_of_bounded chainTree (by decide)) (by decide)

end MctsVanilla

namespace MctsVanilla

variable {σ α : Type}

lemma backprop_aux_length (won : Bool) :
    ∀ (fuel : ℕ) (t : SearchTree α) (o : Option ℕ),
      (backprop_aux won fuel t o).length = t.length := by
  intro fuel
  induction fuel with
  | zero => intro t o; cases o <;> rfl
  | succ f ihf =>
    intro t o
    cases o with
    | none => rfl
    | some i =>
      show (backprop_aux won f (setN t i _) _).length = t.length
      rw [ihf, length_setN]

lemma backprop_aux_fields (won : Bool) :
    ∀ (fuel : ℕ) (t : SearchTree α) (o : Option ℕ) (j : ℕ),
      (getN (backprop_aux won fuel t o) j).parent = (getN t j).parent ∧
      (getN (backprop_aux won fuel t o) j).child_nodes
        = (getN t j).child_nodes ∧
      (getN (backprop_aux won fuel t o) j).untried_actions
        = (getN t j).untried_actions := by
  intro fuel
  induction fuel with
  | zero => intro t o j; cases o <;> exact ⟨rfl, rfl, rfl⟩
  | succ f ihf =>
    intro t o j
    cases o with
    | none => exact ⟨rfl, rfl, rfl⟩
    | some i =>
      have h := ihf (setN t i { getN t i with
          visits := (getN t i).visits + 1,
          wins := (getN t i).wins + (if won then 1 else 0) })
        (getN t i).parent j
      have hs : getN (setN t i { getN t i with
          visits := (getN t i).visits + 1,
          wins := (getN t i).wins + (if won then 1 else 0) }) j
          = if i = j ∧ i < t.length then { getN t i with
              visits := (getN t i).visits + 1,
              wins := (getN t i).wins + (if won then 1 else 0) }
            else getN t j := getN_setN t i j _
      refine ⟨?_, ?_, ?_⟩ <;>
        · rw [show backprop_aux won (f + 1) t (some i)
              = backprop_aux won f (setN t i { getN t i with
                  visits := (getN t i).visits + 1,
                  wins := (getN t i).wins + (if won then 1 else 0) })
                (getN t i).parent from rfl]
          first
          | rw [h.1, hs]
          | rw [h.2.1, hs]
          | rw [h.2.2, hs]
          split
          · next hcase => rw [← hcase.1]
          · rfl

lemma backprop_aux_visits_ge (won : Bool) :
    ∀ (fuel : ℕ) (t : SearchTree α) (o : Option ℕ) (j : ℕ),
      (getN t j).visits ≤ (getN (backprop_aux won fuel t o) j).visits := by
  intro fuel
  induction fuel with
  | zero => intro t o j; cases o <;> exact le_refl _
  | succ f ihf =>
    intro t o j
    cases o with
    | none => exact le_refl _
    | some i =>
      have h := ihf (setN t i { getN t i with
          visits := (getN t i).visits + 1,
          wins := (getN t i).wins + (if won then 1 else 0) })
        (getN t i).parent j
      refine le_trans ?_ h
      rw [getN_setN]
      split
      · next hcase => rw [← hcase.1]; exact Nat.le_succ _
      · exact le_refl _

lemma backpropagate_length (t : SearchTree α) (o : Option ℕ) (won : Bool) :
    (backpropagate t o won).length = t.length :=
  backprop_aux_length won _ t o

lemma backpropagate_fields (t : SearchTree α) (o : Option ℕ) (won : Bool)
    (j : ℕ) :
    (getN (backpropagate t o won) j).parent = (getN t j).parent ∧
    (getN (backpropagate t o won) j).child_nodes = (getN t j).child_nodes ∧
    (getN (backpropagate t o won) j).untried_actions
      = (getN t j).untried_actions :=
  backprop_aux_fields won _ t o j

lemma backpropagate_visits_ge (t : SearchTree α) (o : Option ℕ) (won : Bool)
    (j : ℕ) :
    (getN t j).visits ≤ (getN (backpropagate t o won) j).visits :=
  backprop_aux_visits_ge won _ t o j

lemma backprop_aux_wlv (won : Bool) :
    ∀ (fuel : ℕ) (t : SearchTree α) (o : Option ℕ),
      WinsLeVisits t → WinsLeVisits (backprop_aux won fuel t o) := by
  intro fuel
  induction fuel with
  | zero => intro t o h; cases o <;> exact h
  | succ f ihf =>
    intro t o h
    cases o with
    | none => exact h
    | some i =>
      apply ihf
      intro j hj
      rw [length_setN] at hj
      rw [getN_setN]
      split
      · next hcase =>
        have := h i hcase.2
        cases won <;> simp <;> omega
      · exact h j hj

lemma backpropagate_wlv (t : SearchTree α) (o : Option ℕ) (won : Bool)
    (h : WinsLeVisits t) : WinsLeVisits (backpropagate t o won) :=
  backprop_aux_wlv won _ t o h

lemma backpropagate_visits_start (t : SearchTree α) (i : ℕ) (won : Bool)
    (hi : i < t.length) :
    (getN t i).visits + 1 ≤ (getN (backpropagate t (some i) won) i).visits := by
  have h0 : backpropagate t (some i) won
      = backprop_aux won i (setN t i { getN t i with
          visits := (getN t i).visits + 1,
          wins := (getN t i).wins + (if won then 1 else 0) })
        (getN t i).parent := rfl
  rw [h0]
  refine le_trans ?_ (backprop_aux_visits_ge won i _ (getN t i).parent i)
  rw [getN_setN_self t i _ hi]

lemma untried_ne_nil_lt (t : SearchTree α) (i : ℕ)
    (h : (getN t i).untried_actions ≠ []) : i < t.length := by
  by_contra hc
  rw [getN_oob t i (le_of_not_lt hc)] at h
  exact h rfl

lemma expand_length_some (board : Board σ α) (t : SearchTree α) (i : ℕ) (s : σ)
    (a : α) (hlast : (getN t i).untried_actions.getLast? = some a) :
    (expand_leaf board t i s).1.length = t.length + 1 := by
  simp only [expand_leaf, hlast]
  simp [length_setN]

lemma expand_result_id (board : Board σ α) (t : SearchTree α) (i : ℕ) (s : σ)
    (a : α) (hlast : (getN t i).untried_actions.getLast? = some a) :
    (expand_leaf board t i s).2.1 = t.length := by
  simp only [expand_leaf, hlast]

lemma expand_visits_eq (board : Board σ α) (t : SearchTree α) (i : ℕ) (s : σ) :
    ∀ j, j < t.length →
      (getN (expand_leaf board t i s).1 j).visits = (getN t j).visits ∧
      (getN (expand_leaf board t i s).1 j).wins = (getN t j).wins := by
  intro j hj
  cases hlast : (getN t i).untried_actions.getLast? with
  | none =>
    have he : (expand_leaf board t i s).1 = t := by simp only [expand_leaf, hlast]
    rw [he]
    exact ⟨rfl, rfl⟩
  | some a =>
    simp only [expand_leaf, hlast]
    rw [getN_append_left _ _ j (by rw [length_setN]; exact hj), getN_setN]
    split
    · next hcase => rw [← hcase.1]; exact ⟨rfl, rfl⟩
    · exact ⟨rfl, rfl⟩

lemma expand_new_node_stats (board : Board σ α) (t : SearchTree α) (i : ℕ)
    (s : σ) (a : α) (hlast : (getN t i).untried_actions.getLast? = some a) :
    (getN (expand_leaf board t i s).1 t.length).visits = 0 ∧
    (getN (expand_leaf board t i s).1 t.length).wins = 0 ∧
    (getN (expand_leaf board t i s).1 t.length).child_nodes = [] := by
  simp only [expand_leaf, hlast]
  have h0 := getN_append_length (setN t i { getN t i with
      untried_actions := (getN t i).untried_actions.dropLast,
      child_nodes := (getN t i).child_nodes ++ [(a, t.length)] })
    (MCTSNode.new (some i) (some a)
      (board.legal_actions (board.next_state s a)))
  rw [length_setN] at h0
  rw [h0]
  exact ⟨rfl, rfl, rfl⟩

lemma expand_children_sub (board : Board σ α) (t : SearchTree α) (i : ℕ)
    (s : σ) (a : α) (hlast : (getN t i).untried_actions.getLast? = some a) :
    ∀ j p, p ∈ (getN (expand_leaf board t i s).1 j).child_nodes →
      p ∈ (getN t j).child_nodes ∨ (j = i ∧ p = (a, t.length)) := by
  intro j p hp
  rcases Nat.lt_trichotomy j t.length with hj | hj | hj
  · simp only [expand_leaf, hlast] at hp
    rw [getN_append_left _ _ j (by rw [length_setN]; exact hj), getN_setN] at hp
    by_cases hij : i = j ∧ i < t.length
    · rw [if_pos hij] at hp
      rw [← hij.1]
      rcases List.mem_append.mp hp with h1 | h2
      · exact Or.inl h1
      · right
        exact ⟨rfl, by simpa using h2⟩
    · rw [if_neg hij] at hp
      exact Or.inl hp
  · subst hj
    have h := (expand_new_node_stats board t i s a hlast).2.2
    rw [h] at hp
    cases hp
  · have hlen := expand_length_some board t i s a hlast
    have : (getN (expand_leaf board t i s).1 j).child_nodes = [] := by
      rw [getN_oob _ j (by omega)]; rfl
    rw [this] at hp
    cases hp

lemma expand_wlv (board : Board σ α) (t : SearchTree α) (i : ℕ) (s : σ)
    (h : WinsLeVisits t) : WinsLeVisits (expand_leaf board t i s).1 := by
  cases hlast : (getN t i).untried_actions.getLast? with
  | none =>
    have : (expand_leaf board t i s).1 = t := by simp only [expand_leaf, hlast]
    rw [this]; exact h
  | some a =>
    intro j hj
    rw [expand_length_some board t i s a hlast] at hj
    rcases Nat.lt_or_ge j t.length with hlt | hge
    · obtain ⟨h1, h2⟩ := expand_visits_eq board t i s j hlt
      rw [h1, h2]
      exact h j hlt
    · have hj' : j = t.length := by omega
      subst hj'
      obtain ⟨h1, h2, _⟩ := expand_new_node_stats board t i s a hlast
      rw [h1, h2]

lemma children_mem_lt (t : SearchTree α) (hcv : ChildrenVisited t)
    {i : ℕ} (hi : i < t.length) {p : α × ℕ}
    (hp : p ∈ (getN t i).child_nodes) : p.2 < t.length := by
  by_contra hc
  have h1 := hcv i hi p hp
  rw [getN_oob t p.2 (le_of_not_lt hc)] at h1
  exact absurd h1 (by simp [MCTSNode.new])

lemma mcts_iteration_cv (board : Board σ α) (s0 : σ) (bot F : ℕ) (g : ℕ → ℕ)
    (t : SearchTree α) (k : ℕ) (hcv : ChildrenVisited t) :
    ChildrenVisited (mcts_iteration board s0 bot F g t k).1 := by
  rw [mcts_iteration]
  cases htr : traverse_nodes board t bot (t.length + 1) (some 0) s0 with
  | none => exact hcv
  | some r =>
    obtain ⟨n0, st0⟩ := r
    cases hu : (getN t n0).untried_actions with
    | nil =>
      -- no expansion: result is backpropagate t (some n0) won
      simp only [hu]
      intro j hj p hp
      rw [backpropagate_length] at hj
      have hch := (backpropagate_fields t (some n0)
        (is_win board (rollout board F st0 g k).1 bot) j).2.1
      rw [hch] at hp
      exact le_trans (hcv j hj p hp) (backpropagate_visits_ge t (some n0)
        (is_win board (rollout board F st0 g k).1 bot) p.2)
    | cons a0 rest =>
      simp only [hu]
      -- expansion happened
      have hne : (getN t n0).untried_actions ≠ [] := by rw [hu]; simp
      have hn0 : n0 < t.length := untried_ne_nil_lt t n0 hne
      obtain ⟨a, hlast⟩ : ∃ a, (getN t n0).untried_actions.getLast? = some a := by
        cases hl : (getN t n0).untried_actions.getLast? with
        | none => rw [List.getLast?_eq_none_iff] at hl; exact absurd hl hne
        | some a => exact ⟨a, rfl⟩
      have hid := expand_result_id board t n0 st0 a hlast
      have hlen := expand_length_some board t n0 st0 a hlast
      rw [hid]
      intro j hj p hp
      rw [backpropagate_length] at hj
      have hch := (backpropagate_fields (expand_leaf board t n0 st0).1
        (some t.length)
        (is_win board (rollout board F (expand_leaf board t n0 st0).2.2 g k).1 bot) j).2.1
      rw [hch] at hp
      rcases expand_children_sub board t n0 st0 a hlast j p hp with hold | hnew
      · -- an old edge
        refine le_trans ?_ (backpropagate_visits_ge (expand_leaf board t n0 st0).1
          (some t.length)
          (is_win board (rollout board F (expand_leaf board t n0 st0).2.2 g k).1 bot) p.2)
        have hjlt : j < t.length := by
          by_contra hc
          rw [getN_oob t j (le_of_not_lt hc)] at hold
          cases hold
        have h1 := hcv j hjlt p hold
        have hp2 : p.2 < t.length := children_mem_lt t hcv hjlt hold
        rw [(expand_visits_eq board t n0 st0 p.2 hp2).1]
        exact h1
      · -- the freshly created edge: covered by the first backpropagation step
        have hp2 : p.2 = t.length := by rw [hnew.2]
        rw [hp2]
        have hstart := backpropagate_visits_start (expand_leaf board t n0 st0).1
          t.length (is_win board (rollout board F (expand_leaf board t n0 st0).2.2 g k).1 bot)
          (by rw [hlen]; omega)
        omega
    
end MctsVanilla

namespace MctsVanilla

variable {σ α : Type}

lemma mcts_iteration_wlv (board : Board σ α) (s0 : σ) (bot F : ℕ) (g : ℕ → ℕ)
    (t : SearchTree α) (k : ℕ) (h : WinsLeVisits t) :
    WinsLeVisits (mcts_iteration board s0 bot F g t k).1 := by
  rw [mcts_iteration]
  cases htr : traverse_nodes board t bot (t.length + 1) (some 0) s0 with
  | none => exact h
  | some r =>
    obtain ⟨n0, st0⟩ := r
    cases hu : (getN t n0).untried_actions with
    | nil =>
      simp only [hu]
      exact backpropagate_wlv _ _ _ h
    | cons a0 rest =>
      simp only [hu]
      exact backpropagate_wlv _ _ _ (expand_wlv board t n0 st0 h)

lemma think_loop_preserve (board : Board σ α) (s0 : σ) (bot F : ℕ)
    (g : ℕ → ℕ) (P : SearchTree α → Prop)
    (hstep : ∀ t k, P t → P (mcts_iteration board s0 bot F g t k).1) :
    ∀ (n : ℕ) (tk : SearchTree α × ℕ),
      P tk.1 → P (think_loop board s0 bot F g n tk).1 := by
  intro n
  induction n with
  | zero => intro tk h; exact h
  | succ m ihm =>
    intro tk h
    exact ihm _ (hstep tk.1 tk.2 h)

lemma root_tree_wlv (board : Board σ α) (s0 : σ) :
    WinsLeVisits [MCTSNode.new none none (board.legal_actions s0)] := by
  intro j hj
  have hj0 : j = 0 := by simpa using hj
  subst hj0
  exact le_refl _

lemma root_tree_cv (board : Board σ α) (s0 : σ) :
    ChildrenVisited [MCTSNode.new none none (board.legal_actions s0)] := by
  intro i hi p hp
  have hi0 : i = 0 := by simpa using hi
  subst hi0
  cases hp

lemma ucb_ne_inf (t : SearchTree α) (c : ℕ) (b : Bool)
    (h : (getN t c).visits ≠ 0) : ucb t c b ≠ UcbVal.inf := by
  simp [ucb, h]

/-- C5: every node of every tree built during a `think` call satisfies
`0 ≤ wins ≤ visits` (the lower bound is inherent in the `ℕ`-valued
fields), and the tree-mutating operations of the search (expansion,
backpropagation) preserve the invariant on any tree; selection and
simulation return only a node index and a game state and do not modify
the tree, so they preserve it trivially. -/
theorem wins_le_visits_invariant :
    (∀ (board : Board σ α) (s0 : σ) (n F : ℕ) (g : ℕ → ℕ),
      WinsLeVisits (thinkTree board s0 n F g)) ∧
    (∀ (board : Board σ α) (t : SearchTree α) (i : ℕ) (s : σ),
      WinsLeVisits t → WinsLeVisits (expand_leaf board t i s).1) ∧
    (∀ (t : SearchTree α) (node : Option ℕ) (won : Bool),
      WinsLeVisits t → WinsLeVisits (backpropagate t node won)) := by
  refine ⟨?_, expand_wlv, backpropagate_wlv⟩
  intro board s0 n F g
  exact think_loop_preserve board s0 (board.current_player s0) F g WinsLeVisits
    (fun t k h => mcts_iteration_wlv board s0 (board.current_player s0) F g t k h)
    n ([MCTSNode.new none none (board.legal_actions s0)], 0)
    (root_tree_wlv board s0)

/-- Witness for `wins_le_visits_invariant` on the one-move game, the
expandable one-node arena and the three-node chain. -/
theorem wins_le_visits_witness :
    WinsLeVisits (thinkTree oneMoveBoard 0 1 2 (fun _ => 0)) ∧
    WinsLeVisits (expand_leaf oneMoveBoard expandTree 0 0).1 ∧
    WinsLeVisits (backpropagate chainTree (some 2) true) :=
  ⟨(@wins_le_visits_invariant ℕ ℕ).1 oneMoveBoard 0 1 2 (fun _ => 0),
   (@wins_le_visits_invariant ℕ ℕ).2.1 oneMoveBoard expandTree 0 0
     (by unfold WinsLeVisits; decide),
   (@wins_le_visits_invariant ℕ ℕ).2.2 chainTree (some 2) true
     (by unfold WinsLeVisits; decide)⟩

/-- C10: in every tree `think` builds, every node present in some node's
children map has `visits ≥ 1` from the end of the iteration that created
it onward — the creating iteration backpropagates starting at the new
child — so no already-backpropagated child has UCB `+infinity` during
selection, and `get_best_action` never reads a zero visit count. -/
theorem children_visited_invariant (board : Board σ α) (s0 : σ) (n F : ℕ)
    (g : ℕ → ℕ) :
    ChildrenVisited (thinkTree board s0 n F g) ∧
    (∀ i, i < (thinkTree board s0 n F g).length →
      ∀ p ∈ (getN (thinkTree board s0 n F g) i).child_nodes,
        (getN (thinkTree board s0 n F g) p.2).visits ≠ 0 ∧
        ∀ b, ucb (thinkTree board s0 n F g) p.2 b ≠ UcbVal.inf) := by
  have hcv : ChildrenVisited (thinkTree board s0 n F g) :=
    think_loop_preserve board s0 (board.current_player s0) F g ChildrenVisited
      (fun t k h => mcts_iteration_cv board s0 (board.current_player s0) F g t k h)
      n ([MCTSNode.new none none (board.legal_actions s0)], 0)
      (root_tree_cv board s0)
  refine ⟨hcv, ?_⟩
  intro i hi p hp
  have h1 := hcv i hi p hp
  have h2 : (getN (thinkTree board s0 n F g) p.2).visits ≠ 0 := by omega
  exact ⟨h2, fun b => ucb_ne_inf _ p.2 b h2⟩

/-- Witness for `children_visited_invariant`: the child expanded in the
single iteration on the one-move game has a positive visit count and
finite UCB. -/
theorem children_visited_witness :
    (getN (thinkTree oneMoveBoard 0 1 2 (fun _ => 0)) 1).visits ≠ 0 ∧
    ∀ b, ucb (thinkTree oneMoveBoard 0 1 2 (fun _ => 0)) 1 b ≠ UcbVal.inf :=
  (children_visited_invariant oneMoveBoard 0 1 2 (fun _ => 0)).2 0 (by decide)
    (0, 1) (by decide)

end MctsVanilla

namespace MctsVanilla

variable {σ α : Type}

lemma gba_loop_argmax (t : SearchTree α) :
    ∀ (cs : List (α × ℕ)) (br : ℚ) (acc : Option α),
      (get_best_action_loop t cs br acc = acc ∧
        ∀ p ∈ cs, win_rate t p.2 ≤ br) ∨
      (∃ pre c post, cs = pre ++ c :: post ∧
        get_best_action_loop t cs br acc = some c.1 ∧
        br < win_rate t c.2 ∧
        (∀ p ∈ pre, win_rate t p.2 < win_rate t c.2) ∧
        (∀ p ∈ cs, win_rate t p.2 ≤ win_rate t c.2)) := by
  intro cs
  induction cs with
  | nil =>
    intro br acc
    left
    exact ⟨rfl, by simp⟩
  | cons hd rest ih =>
    intro br acc
    obtain ⟨a, d⟩ := hd
    by_cases hbr : br < win_rate t d
    · have hstep : get_best_action_loop t ((a, d) :: rest) br acc
          = get_best_action_loop t rest (win_rate t d) (some a) := by
        simp only [get_best_action_loop, if_pos hbr]
      rcases ih (win_rate t d) (some a) with ⟨hres, hall⟩ |
        ⟨pre, c, post, hsplit, hres, hlt, hpre, hallc⟩
      · right
        refine ⟨[], (a, d), rest, rfl, ?_, hbr, ?_, ?_⟩
        · rw [hstep, hres]
        · intro p hp; cases hp
        · intro p hp
          rcases List.mem_cons.mp hp with h1 | h2
          · rw [h1]
          · exact hall p h2
      · right
        refine ⟨(a, d) :: pre, c, post, by rw [hsplit]; rfl, ?_,
          lt_trans hbr hlt, ?_, ?_⟩
        · rw [hstep, hres]
        · intro p hp
          rcases List.mem_cons.mp hp with h1 | h2
          · rw [h1]; exact hlt
          · exact hpre p h2
        · intro p hp
          rcases List.mem_cons.mp hp with h1 | h2
          · rw [h1]; exact le_of_lt hlt
          · exact hallc p h2
    · have hstep : get_best_action_loop t ((a, d) :: rest) br acc
          = get_best_action_loop t rest br acc := by
        simp only [get_best_action_loop, if_neg hbr]
      rcases ih br acc with ⟨hres, hall⟩ |
        ⟨pre, c, post, hsplit, hres, hlt, hpre, hallc⟩
      · left
        refine ⟨by rw [hstep, hres], ?_⟩
        intro p hp
        rcases List.mem_cons.mp hp with h1 | h2
        · rw [h1]; exact le_of_not_lt hbr
        · exact hall p h2
      · right
        refine ⟨(a, d) :: pre, c, post, by rw [hsplit]; rfl, by rw [hstep, hres],
          hlt, ?_, ?_⟩
        · intro p hp
          rcases List.mem_cons.mp hp with h1 | h2
          · rw [h1]; exact lt_of_le_of_lt (le_of_not_lt hbr) hlt
          · exact hpre p h2
        · intro p hp
          rcases List.mem_cons.mp hp with h1 | h2
          · rw [h1]; exact le_of_lt (lt_of_le_of_lt (le_of_not_lt hbr) hlt)
          · exact hallc p h2

/-- C3: `think` returns `get_best_action` of the tree left by the budget
loop; and on any tree whose root has at least one expanded (visited)
child, `get_best_action` returns some action, namely the action of the
first-encountered child maximizing the plain win rate `wins / visits`
(not UCB): strictly better than every earlier child, at least as good as
every child. -/
theorem think_best_action (board : Board σ α) (s0 : σ) (n F : ℕ)
    (g : ℕ → ℕ) :
    think board s0 n F g = get_best_action (thinkTree board s0 n F g) 0 ∧
    (∀ (t : SearchTree α) (r : ℕ),
      (getN t r).child_nodes ≠ [] →
      (∀ p ∈ (getN t r).child_nodes, (getN t p.2).visits ≠ 0) →
      ∃ pre c post, (getN t r).child_nodes = pre ++ c :: post ∧
        get_best_action t r = some c.1 ∧
        (∀ p ∈ pre, win_rate t p.2 < win_rate t c.2) ∧
        (∀ p ∈ (getN t r).child_nodes, win_rate t p.2 ≤ win_rate t c.2)) := by
  refine ⟨rfl, ?_⟩
  intro t r hne _hvis
  rcases gba_loop_argmax t (getN t r).child_nodes (-1) none with ⟨_hres, hall⟩ |
    ⟨pre, c, post, hsplit, hres, _hlt, hpre, hallc⟩
  · exfalso
    obtain ⟨p0, rest0, hsplit0⟩ := List.exists_cons_of_ne_nil hne
    have h0 := hall p0 (by rw [hsplit0]; exact List.mem_cons_self _ _)
    have h1 : (0 : ℚ) ≤ win_rate t p0.2 := by
      unfold win_rate
      positivity
    linarith
  · exact ⟨pre, c, post, hsplit, hres, hpre, hallc⟩

/-- Witness for `think_best_action` on the one-move game and the two-node
arena `pairTree`. -/
theorem think_best_action_witness :
    think oneMoveBoard 0 1 2 (fun _ => 0)
      = get_best_action (thinkTree oneMoveBoard 0 1 2 (fun _ => 0)) 0 ∧
    (∃ pre c post, (getN pairTree 0).child_nodes = pre ++ c :: post ∧
      get_best_action pairTree 0 = some c.1 ∧
      (∀ p ∈ pre, win_rate pairTree p.2 < win_rate pairTree c.2) ∧
      (∀ p ∈ (getN pairTree 0).child_nodes,
        win_rate pairTree p.2 ≤ win_rate pairTree c.2)) :=
  ⟨(think_best_action oneMoveBoard 0 1 2 (fun _ => 0)).1,
   (think_best_action oneMoveBoard 0 1 2 (fun _ => 0)).2 pairTree 0
     (by decide) (by decide)⟩

end MctsVanilla

namespace MctsVanilla

variable {σ α : Type}

lemma rollout_ended (board : Board σ α) (F : ℕ) (s : σ) (g : ℕ → ℕ) (k : ℕ)
    (hend : board.is_ended s = true) : rollout board F s g k = (s, k) := by
  cases F with
  | zero => rfl
  | succ f => simp [rollout, hend]

lemma mcts_iteration_terminal (board : Board σ α) (s0 : σ) (bot F : ℕ)
    (g : ℕ → ℕ) (nd : MCTSNode α) (k : ℕ) (hend : board.is_ended s0 = true)
    (hu : nd.untried_actions = []) (hpar : nd.parent = none) :
    mcts_iteration board s0 bot F g [nd] k
      = ([{ nd with
            wins := nd.wins + (if is_win board s0 bot then 1 else 0),
            visits := nd.visits + 1 }], k) := by
  obtain ⟨p, pa, cn, ua, wi, vi⟩ := nd
  simp only at hu hpar
  subst hu hpar
  have htr : traverse_nodes board [(MCTSNode.mk none pa cn [] wi vi : MCTSNode α)]
      bot (List.length [(MCTSNode.mk none pa cn [] wi vi : MCTSNode α)] + 1)
      (some 0) s0 = some (0, s0) := by
    simp [traverse_nodes, hend]
  rw [mcts_iteration]
  simp only [htr]
  simp [getN, List.getD, rollout_ended board F s0 g k hend,
    backpropagate, backprop_aux, setN]

lemma think_loop_terminal (board : Board σ α) (s0 : σ) (bot F : ℕ)
    (g : ℕ → ℕ) (hend : board.is_ended s0 = true) :
    ∀ (n : ℕ) (nd : MCTSNode α) (k : ℕ),
      nd.untried_actions = [] → nd.parent = none →
      think_loop board s0 bot F g n ([nd], k)
      = ([{ nd with
            wins := nd.wins + n * (if is_win board s0 bot then 1 else 0),
            visits := nd.visits + n }], k) := by
  intro n
  induction n with
  | zero =>
    intro nd k hu hpar
    simp [think_loop]
  | succ m ihm =>
    intro nd k hu hpar
    obtain ⟨p, pa, cn, ua, wi, vi⟩ := nd
    simp only at hu hpar
    subst hu hpar
    show think_loop board s0 bot F g m
        (mcts_iteration board s0 bot F g [MCTSNode.mk none pa cn [] wi vi] k)
      = _
    rw [mcts_iteration_terminal board s0 bot F g _ k hend rfl rfl]
    rw [ihm _ k rfl rfl]
    simp only [MCTSNode.mk.injEq]
    cases h : is_win board s0 bot <;> simp [h] <;> omega

/-- C8 (amended): called on a state that is already terminal (empty legal
actions), `think` returns no action (`None`), but it does not skip the
search: it still runs every one of the `num_nodes` budgeted iterations,
each selecting the bare root, simulating trivially on the terminal state
and backpropagating through the root, whose visit count ends at
`num_nodes`. -/
theorem think_terminal_spec (board : Board σ α) (s0 : σ) (n F : ℕ)
    (g : ℕ → ℕ) (hend : board.is_ended s0 = true)
    (hleg : board.legal_actions s0 = []) :
    think board s0 n F g = none ∧
    (getN (thinkTree board s0 n F g) 0).visits = n := by
  have hnew : (MCTSNode.new none none (board.legal_actions s0) : MCTSNode α).untried_actions
      = [] := by
    simp [MCTSNode.new, hleg]
  have hT : thinkTree board s0 n F g
      = [{ (MCTSNode.new none none (board.legal_actions s0) : MCTSNode α) with
           wins := 0 + n * (if is_win board s0 (board.current_player s0) then 1 else 0),
           visits := 0 + n }] := by
    show (think_loop board s0 (board.current_player s0) F g n
      ([MCTSNode.new none none (board.legal_actions s0)], 0)).1 = _
    rw [think_loop_terminal board s0 (board.current_player s0) F g hend n
      (MCTSNode.new none none (board.legal_actions s0)) 0 hnew rfl]
    rfl
  constructor
  · show get_best_action (thinkTree board s0 n F g) 0 = none
    rw [hT]
    rfl
  · rw [hT]
    show 0 + n = n
    omega

/-- Witness for `think_terminal_spec` on the all-terminal game with an
iteration budget of 3. -/
theorem think_terminal_witness :
    think endedBoard 5 3 1 (fun k => k) = none ∧
    (getN (thinkTree endedBoard 5 3 1 (fun k => k)) 0).visits = 3 :=
  think_terminal_spec endedBoard 5 3 1 (fun k => k) rfl rfl

/-- C8, counterexample to the claim as stated: on the all-terminal game
with an iteration budget of 2, `think` does return no action, but it does
not avoid running search iterations against the budget: both iterations
execute and backpropagate through the root, whose visit count ends at 2,
not 0. -/
theorem think_terminal_counterexample :
    think endedBoard 0 2 1 (fun _ => 0) = none ∧
    (getN (thinkTree endedBoard 0 2 1 (fun _ => 0)) 0).visits = 2 ∧
    (getN (thinkTree endedBoard 0 2 1 (fun _ => 0)) 0).visits ≠ 0 :=
  ⟨by decide, by decide, by decide⟩

end MctsVanilla

namespace MctsVanilla

variable {σ α : Type}

lemma ucb_val_of_visits_ne (t : SearchTree α) (c : ℕ) (b : Bool)
    (h : (getN t c).visits ≠ 0) : ∃ x, ucb t c b = UcbVal.val x :=
  ⟨(if b then 1 - ((getN t c).wins : ℝ) / ((getN t c).visits : ℝ)
     else ((getN t c).wins : ℝ) / ((getN t c).visits : ℝ)) +
    explore_faction * Real.sqrt (Real.log
      ((getN t ((getN t c).parent.getD t.length)).visits) /
        ((getN t c).visits : ℝ)),
   if_neg h⟩

lemma ucb_val_ge0 (t : SearchTree α) (c : ℕ) (b : Bool) (x : ℝ)
    (hv : (getN t c).visits ≠ 0)
    (hw : (getN t c).wins ≤ (getN t c).visits)
    (hx : ucb t c b = UcbVal.val x) : 0 ≤ x := by
  have hvpos : (0 : ℝ) < ((getN t c).visits : ℝ) := by
    exact_mod_cast Nat.pos_of_ne_zero hv
  have he0 : (0 : ℝ) ≤ ((getN t c).wins : ℝ) / ((getN t c).visits : ℝ) := by
    positivity
  have he1 : ((getN t c).wins : ℝ) / ((getN t c).visits : ℝ) ≤ 1 := by
    rw [div_le_one hvpos]
    exact_mod_cast hw
  have hsq : (0 : ℝ) ≤ explore_faction *
      Real.sqrt (Real.log
        ((getN t ((getN t c).parent.getD t.length)).visits) / ((getN t c).visits : ℝ)) := by
    apply mul_nonneg
    · rw [explore_faction]; norm_num
    · exact Real.sqrt_nonneg _
  simp only [ucb, hv, if_neg, if_false, UcbVal.val.injEq] at hx
  rw [← hx]
  cases b
  · simp only [Bool.false_eq_true, if_false]
    linarith
  · simp only [if_true]
    linarith

lemma traverse_loop_inr (board : Board σ α) (t : SearchTree α) (s : σ)
    (b : Bool) :
    ∀ (cs : List (α × ℕ)) (br : ℝ) (acc : Option (ℕ × σ)),
      (∀ p ∈ cs, (getN t p.2).visits ≠ 0) →
      ∃ res, traverse_loop board t s b cs br acc = Sum.inr res ∧
        (res = acc ∨ ∃ p ∈ cs, res = some (p.2, board.next_state s p.1)) := by
  intro cs
  induction cs with
  | nil =>
    intro br acc _h
    exact ⟨acc, rfl, Or.inl rfl⟩
  | cons hd rest ih =>
    intro br acc h
    obtain ⟨a, d⟩ := hd
    obtain ⟨x, hx⟩ := ucb_val_of_visits_ne t d b
      (h (a, d) (List.mem_cons_self _ _))
    by_cases hbr : br < x
    · have hstep : traverse_loop board t s b ((a, d) :: rest) br acc
          = traverse_loop board t s b rest x (some (d, board.next_state s a)) := by
        simp only [traverse_loop, hx, if_pos hbr]
      obtain ⟨res, hres, hor⟩ := ih x (some (d, board.next_state s a))
        (fun p hp => h p (List.mem_cons_of_mem _ hp))
      refine ⟨res, by rw [hstep, hres], ?_⟩
      rcases hor with h1 | ⟨p, hp, h2⟩
      · exact Or.inr ⟨(a, d), List.mem_cons_self _ _, h1⟩
      · exact Or.inr ⟨p, List.mem_cons_of_mem _ hp, h2⟩
    · have hstep : traverse_loop board t s b ((a, d) :: rest) br acc
          = traverse_loop board t s b rest br acc := by
        simp only [traverse_loop, hx, if_neg hbr]
      obtain ⟨res, hres, hor⟩ := ih br acc
        (fun p hp => h p (List.mem_cons_of_mem _ hp))
      refine ⟨res, by rw [hstep, hres], ?_⟩
      rcases hor with h1 | ⟨p, hp, h2⟩
      · exact Or.inl h1
      · exact Or.inr ⟨p, List.mem_cons_of_mem _ hp, h2⟩

lemma traverse_loop_picks (board : Board σ α) (t : SearchTree α) (s : σ)
    (b : Bool) (a0 : α) (d0 : ℕ) (rest : List (α × ℕ))
    (hvis : ∀ p ∈ (a0, d0) :: rest, (getN t p.2).visits ≠ 0)
    (hwin : ∀ p ∈ (a0, d0) :: rest,
      (getN t p.2).wins ≤ (getN t p.2).visits) :
    ∃ p ∈ (a0, d0) :: rest,
      traverse_loop board t s b ((a0, d0) :: rest) (-1) none
        = Sum.inr (some (p.2, board.next_state s p.1)) := by
  obtain ⟨x, hx⟩ := ucb_val_of_visits_ne t d0 b
    (hvis (a0, d0) (List.mem_cons_self _ _))
  have hx0 : 0 ≤ x := ucb_val_ge0 t d0 b x
    (hvis (a0, d0) (List.mem_cons_self _ _))
    (hwin (a0, d0) (List.mem_cons_self _ _)) hx
  have hbr : (-1 : ℝ) < x := by linarith
  have hstep : traverse_loop board t s b ((a0, d0) :: rest) (-1) none
      = traverse_loop board t s b rest x (some (d0, board.next_state s a0)) := by
    simp only [traverse_loop, hx, if_pos hbr]
  obtain ⟨res, hres, hor⟩ := traverse_loop_inr board t s b rest x
    (some (d0, board.next_state s a0))
    (fun p hp => hvis p (List.mem_cons_of_mem _ hp))
  rcases hor with h1 | ⟨p, hp, h2⟩
  · exact ⟨(a0, d0), List.mem_cons_self _ _, by rw [hstep, hres, h1]⟩
  · exact ⟨p, List.mem_cons_of_mem _ hp, by rw [hstep, hres, h2]⟩

lemma traverse_rec (board : Board σ α) (t : SearchTree α) (bot : ℕ)
    (stateOf : ℕ → σ)
    (hids : ChildIdsValid t) (hcv : ChildrenVisited t) (hwv : WinsLeVisits t)
    (hst : TreeStates board t stateOf)
    (huc : UntriedComplete board t stateOf)
    (hleg : ∀ i < t.length, board.is_ended (stateOf i) = false →
      board.legal_actions (stateOf i) ≠ []) :
    ∀ (d i0 : ℕ), i0 < t.length → t.length - i0 ≤ d →
      ∃ j, Reaches t i0 j ∧ i0 ≤ j ∧ j < t.length ∧
        (board.is_ended (stateOf j) = true ∨ (getN t j).untried_actions ≠ []) ∧
        ∀ fuel, t.length + 1 ≤ fuel + i0 →
          traverse_nodes board t bot fuel (some i0) (stateOf i0)
            = some (j, stateOf j) := by
  intro d
  induction d with
  | zero => intro i0 h1 h2; omega
  | succ dm ihd =>
    intro i0 hi0 hd
    cases hE : board.is_ended (stateOf i0) with
    | true =>
      refine ⟨i0, Reaches.refl i0, le_refl _, hi0, Or.inl hE, ?_⟩
      intro fuel hf
      obtain ⟨f, rfl⟩ : ∃ f, fuel = f + 1 := ⟨fuel - 1, by omega⟩
      simp [traverse_nodes, hE]
    | false =>
      cases hU : (getN t i0).untried_actions with
      | cons u us =>
        refine ⟨i0, Reaches.refl i0, le_refl _, hi0,
          Or.inr (by rw [hU]; simp), ?_⟩
        intro fuel hf
        obtain ⟨f, rfl⟩ : ∃ f, fuel = f + 1 := ⟨fuel - 1, by omega⟩
        simp [traverse_nodes, hE, hU]
      | nil =>
        have hcsne : (getN t i0).child_nodes ≠ [] := by
          have h1 := huc i0 hi0
          rw [hU] at h1
          intro hc
          apply hleg i0 hi0 hE
          rw [← h1, hc]
          rfl
        obtain ⟨p0, rest0, hcs⟩ := List.exists_cons_of_ne_nil hcsne
        obtain ⟨a0, d0⟩ := p0
        have hvis : ∀ p ∈ (getN t i0).child_nodes,
            (getN t p.2).visits ≠ 0 := by
          intro p hp
          have := hcv i0 hi0 p hp
          omega
        have hwin : ∀ p ∈ (getN t i0).child_nodes,
            (getN t p.2).wins ≤ (getN t p.2).visits := by
          intro p hp
          exact hwv p.2 (children_mem_lt t hcv hi0 hp)
        obtain ⟨p, hp, hloop⟩ := traverse_loop_picks board t (stateOf i0)
          (board.current_player (stateOf i0) != bot) a0 d0 rest0
          (by rw [← hcs]; exact hvis) (by rw [← hcs]; exact hwin)
        have hpmem : p ∈ (getN t i0).child_nodes := by rw [hcs]; exact hp
        have hedge := hids i0 hi0 p hpmem
        have hstate : stateOf p.2 = board.next_state (stateOf i0) p.1 :=
          hst i0 hi0 p hpmem
        obtain ⟨j, hreach, hle, hjlt, hterm, hfuel⟩ :=
          ihd p.2 hedge.2 (by omega)
        refine ⟨j, Reaches.step p.1 (by simpa using hpmem) hreach,
          by omega, hjlt, hterm, ?_⟩
        intro fuel hf
        obtain ⟨f, rfl⟩ : ∃ f, fuel = f + 1 := ⟨fuel - 1, by omega⟩
        have hunf : traverse_nodes board t bot (f + 1) (some i0) (stateOf i0)
            = traverse_nodes board t bot f (some p.2)
                (board.next_state (stateOf i0) p.1) := by
          simp only [traverse_nodes, hE, Bool.false_eq_true, if_false, hU,
            hcs, hloop]
        rw [hunf, ← hstate]
        exact hfuel f (by omega)

/-- C7: under the Game contract (non-empty legal actions on non-terminal
states, here phrased for the states labelling the tree) and on a finite
well-formed tree whose every child has been visited at least once (with
consistent statistics, edge states and action bookkeeping), the selection
recursion `traverse_nodes` terminates — every sufficient fuel returns the
same answer — and returns a pair `(j, stateOf j)` where `j` lies at or
below the start node (reachable along child edges, each recursive step
descending strictly deeper, so `i0 ≤ j`) and is either terminal or has
untried actions, paired with the game state at that node. -/
theorem traverse_nodes_spec (board : Board σ α) (t : SearchTree α) (bot : ℕ)
    (stateOf : ℕ → σ)
    (hids : ChildIdsValid t) (hcv : ChildrenVisited t) (hwv : WinsLeVisits t)
    (hst : TreeStates board t stateOf)
    (huc : UntriedComplete board t stateOf)
    (hleg : ∀ i < t.length, board.is_ended (stateOf i) = false →
      board.legal_actions (stateOf i) ≠ [])
    (i0 : ℕ) (hi0 : i0 < t.length) :
    ∃ j, Reaches t i0 j ∧ i0 ≤ j ∧ j < t.length ∧
      (board.is_ended (stateOf j) = true ∨ (getN t j).untried_actions ≠ []) ∧
      ∀ fuel, t.length + 1 ≤ fuel + i0 →
        traverse_nodes board t bot fuel (some i0) (stateOf i0)
          = some (j, stateOf j) :=
  traverse_rec board t bot stateOf hids hcv hwv hst huc hleg t.length i0 hi0
    (by omega)

end MctsVanilla

namespace MctsVanilla

/-- Witness for `traverse_nodes_spec`: selection from the root of
`pairTree` under `stepBoard`. -/
theorem traverse_nodes_spec_witness :
    ∃ j, Reaches pairTree 0 j ∧ 0 ≤ j ∧ j < pairTree.length ∧
      (stepBoard.is_ended ((fun i => i) j) = true ∨
        (getN pairTree j).untried_actions ≠ []) ∧
      ∀ fuel, pairTree.length + 1 ≤ fuel + 0 →
        traverse_nodes stepBoard pairTree 1 fuel (some 0) ((fun i => i) 0)
          = some (j, (fun i => i) j) :=
  traverse_nodes_spec stepBoard pairTree 1 (fun i => i)
    (by unfold ChildIdsValid; decide)
    (by unfold ChildrenVisited; decide)
    (by unfold WinsLeVisits; decide)
    (by unfold TreeStates; decide)
    (by unfold UntriedComplete; decide)
    (by decide)
    0 (by decide)

end MctsVanilla
